import Mathlib

/-
Verification of the segmentation engine and batch loader of the ECG_HRV
repository.  The Python sources (src/segmentation.py, src/data_preprocessing.py)
are shallowly embedded below: pandas DataFrames become Lean lists of records,
Python dicts become insertion-ordered association lists, and Python exceptions
become the error side of an Except value.  External numeric routines
(neurokit2 cleaning, peak detection, timestamp conversion) are opaque to the
segmentation logic and are passed in as function parameters, exactly as the
sources treat them as black boxes.
-/

set_option maxHeartbeats 1000000

namespace ECGHRV

/-! ## Character-level models of the Python string operations used by the code.

Python operates on strings as character sequences; the Lean builtin string
functions are byte-position based and are replaced here by character-list
definitions with the same semantics on the inputs in question. -/

/-- Model of the Python slice s[:-n] (drop the last n characters). -/
def pyDropRight (s : String) (n : Nat) : String :=
  String.mk (s.data.take (s.data.length - n))

/-- Model of the Python str.endswith test. -/
def pyEndsWith (s suf : String) : Bool :=
  decide (suf.data.length ≤ s.data.length) &&
    decide (s.data.drop (s.data.length - suf.data.length) = suf.data)

/-- Model of the Python expression s.split(sep)[0] for a one-character
separator: the portion of s before the first underscore (the whole of s
when no underscore occurs). -/
def pySplitHead (s : String) : String :=
  String.mk (s.data.takeWhile (fun c => !(c == '_')))

/-! ## Data model -/

/-- One row of the ECG DataFrame: a timestamp in milliseconds and the
amplitude value of the EcgWaveform column.  Amplitudes are opaque to the
segmentation logic (the code only moves rows around), so their type is a
parameter. -/
structure Sample (α : Type) where
  timestamp_ms : Int
  EcgWaveform : α
deriving Repr, DecidableEq

/-- One row of the event-log DataFrame: an event name and its timestamp. -/
structure EventRec where
  events : String
  timestamp_ms : Int
deriving Repr, DecidableEq

/-- The events column of the log as a list of names. -/
def eventNames (log : List EventRec) : List String :=
  log.map (fun r => r.events)

/-- Deduplication pass over a list: drop every element already seen (the
seen accumulator), keep the rest in encounter order. -/
def uniqueAux {γ : Type} [DecidableEq γ] : List γ → List γ → List γ
  | [], _ => []
  | a :: rest, seen =>
    if a ∈ seen then uniqueAux rest seen else a :: uniqueAux rest (a :: seen)

/-- Model of pandas Series.unique: deduplicate, keeping the first occurrence
of each value, in first-encounter order. -/
def uniqueList {γ : Type} [DecidableEq γ] (l : List γ) : List γ :=
  uniqueAux l []

/-- Model of df[df[events] == name][timestamp_ms].values[0]: the timestamp of
the first log row whose event name matches, none when no row matches (in
Python, .values[0] on the empty selection raises an IndexError). -/
def firstTime (log : List EventRec) (name : String) : Option Int :=
  match log with
  | [] => none
  | r :: rest => if r.events = name then some r.timestamp_ms else firstTime rest name

/-- Model of ecg_df[(ecg_df[timestamp_ms] >= b) & (ecg_df[timestamp_ms] <= e)]:
the rows whose timestamp lies in the inclusive window. -/
def sliceSeg {α : Type} (ecg : List (Sample α)) (b e : Int) : List (Sample α) :=
  ecg.filter (fun s => decide (b ≤ s.timestamp_ms) && decide (s.timestamp_ms ≤ e))

/-! ## Insertion-ordered dictionaries (Python dict semantics) -/

/-- Python dict assignment d[k] = v: replace the value in place when the key
exists, append the binding otherwise. -/
def dinsert {β : Type} : List (String × β) → String → β → List (String × β)
  | [], k, v => [(k, v)]
  | (k', v') :: rest, k, v =>
    if k' = k then (k', v) :: rest else (k', v') :: dinsert rest k v

/-- Python dict access d[k] (as an option): the value bound to the key. -/
def dlookup {β : Type} : List (String × β) → String → Option β
  | [], _ => none
  | (k', v) :: rest, k => if k' = k then some v else dlookup rest k

/-! ## segmentation_ecg (src/segmentation.py lines 4-62) -/

/-- The fixed condition vocabulary of segmentation.py line 20. -/
def condition_prefixes : List String := ["C", "0B", "2B"]

/-- Loop state of segmentation_ecg: the segments dict, the accumulated
order_of_conditions, and the current value of the condition variable. -/
structure SegState (α : Type) where
  segments : List (String × List (Sample α))
  order_of_conditions : List String
  condition : String

/-- Lines 24-28 of segmentation.py: update the condition variable and the
order_of_conditions list from the name (with the _begin suffix stripped) of
one begin event. -/
def orderUpdate (cond : String) (order : List String) (event_name : String) :
    String × List String :=
  let cond' := if (pySplitHead event_name).length ≤ 2 then pySplitHead event_name else cond
  let order' :=
    if cond' ∈ condition_prefixes ∧ cond' ∉ order then order ++ [cond'] else order
  (cond', order')

/-- One iteration of the event loop of segmentation_ecg (lines 22-48).  An
exact _end lookup is tried first; otherwise the condition-level fallback
{leading token}_end is looked up, and a failing fallback lookup is the
IndexError that .values[0] raises on an empty selection.  A begin event named
fixation_cross_begin that resolves through the fallback additionally
synthesizes the trimmed fixation_cross_v2 segment (lines 44-48). -/
def stepEvent {α : Type} (log : List EventRec) (ecg : List (Sample α))
    (st : SegState α) (event : String) : Except String (SegState α) :=
  if pyEndsWith event "_begin" = true then
    let event_name := pyDropRight event 6
    let p := orderUpdate st.condition st.order_of_conditions event_name
    match firstTime log event with
    | none => Except.error "IndexError"
    | some begin_time =>
      let end_event := event_name ++ "_end"
      match firstTime log end_event with
      | some end_time =>
        Except.ok ⟨dinsert st.segments event_name (sliceSeg ecg begin_time end_time),
                   p.2, p.1⟩
      | none =>
        let end_condition := pySplitHead end_event ++ "_end"
        match firstTime log end_condition with
        | none => Except.error "IndexError"
        | some end_time =>
          let segs := dinsert st.segments event_name (sliceSeg ecg begin_time end_time)
          let segs :=
            if event_name = "fixation_cross" then
              dinsert segs (event_name ++ "_v2")
                (sliceSeg ecg (begin_time + 30000) (end_time - 30000))
            else segs
          Except.ok ⟨segs, p.2, p.1⟩
  else
    Except.ok st

/-- The event loop of segmentation_ecg, over the deduplicated event names. -/
def runEvents {α : Type} (log : List EventRec) (ecg : List (Sample α)) :
    SegState α → List String → Except String (SegState α)
  | st, [] => Except.ok st
  | st, e :: es =>
    match stepEvent log ecg st e with
    | Except.error msg => Except.error msg
    | Except.ok st' => runEvents log ecg st' es

/-- Lines 50-56 of segmentation.py: concatenate (pd.concat, left to right) the
existing segments named pfx_phase_k for k in range(start_phase, end_phase+1). -/
def combine_phases {α : Type} (segments : List (String × List (Sample α)))
    (pfx : String) (start_phase end_phase : Nat) : List (Sample α) :=
  (List.range' start_phase (end_phase + 1 - start_phase)).foldl
    (fun combined_segment phase =>
      match dlookup segments (pfx ++ "_phase_" ++ toString phase) with
      | some seg => combined_segment ++ seg
      | none => combined_segment) []

/-- Lines 58-60 of segmentation.py: for each condition in discovered order,
insert the combined segments condition.1 (phases 1-6) and condition.2
(phases 7-12); each combination reads the segments dict as already mutated. -/
def addCombined {α : Type} (segs : List (String × List (Sample α))) :
    List String → List (String × List (Sample α))
  | [] => segs
  | c :: cs =>
    let segs1 := dinsert segs (c ++ ".1") (combine_phases segs c 1 6)
    let segs2 := dinsert segs1 (c ++ ".2") (combine_phases segs1 c 7 12)
    addCombined segs2 cs

/-- The event-loop part of segmentation_ecg: fold the per-event step over the
unique event names, starting from the empty dict, empty order and the empty
initial condition string. -/
def eventSegResult {α : Type} (ecg_df : List (Sample α)) (log_event_df : List EventRec) :
    Except String (SegState α) :=
  runEvents log_event_df ecg_df ⟨[], [], ""⟩ (uniqueList (eventNames log_event_df))

/-- Full segmentation_ecg (lines 4-62): run the event loop, then append the
combined phase segments for each discovered condition.  A Python exception
(IndexError from an unresolvable boundary) is the error case. -/
def segmentation_ecg {α : Type} (ecg_df : List (Sample α)) (log_event_df : List EventRec) :
    Except String (List (String × List (Sample α))) :=
  match eventSegResult ecg_df log_event_df with
  | Except.error e => Except.error e
  | Except.ok st => Except.ok (addCombined st.segments st.order_of_conditions)

/-- One event of the condition-ordering part of the loop, as a transition on
the pair (condition, order_of_conditions): exactly what stepEvent does to
that pair. -/
def ordStep (p : String × List String) (ev : String) : String × List String :=
  if pyEndsWith ev "_begin" = true then orderUpdate p.1 p.2 (pyDropRight ev 6) else p

/-- Replay of lines 16-28 only (the condition-ordering part of the event
loop), as a function of the event-name sequence; stepEvent applies exactly
orderUpdate to its state, so this is the projection of the loop onto the pair
(condition, order_of_conditions). -/
def conditionsOrder (events : List String) : List String :=
  (events.foldl ordStep ("", [])).2

/-- Condition code contributed by one raw event name, if any: the leading
token of a begin event when that token is in the fixed vocabulary (vocabulary
members have length at most 2, so the length guard of line 25 is subsumed).
Used to characterize conditionsOrder. -/
def codeOf (event : String) : Option String :=
  if pyEndsWith event "_begin" = true then
    let t := pySplitHead (pyDropRight event 6)
    if t ∈ condition_prefixes then some t else none
  else none

/-- Specification-side form of the Phase Combiner output (spec section 4.4):
the concatenation, in ascending phase order, of exactly those phase segments
that are present; absent phases contribute nothing. -/
def phaseConcatSpec {α : Type} (segments : List (String × List (Sample α)))
    (pfx : String) (lo hi : Nat) : List (Sample α) :=
  ((List.range' lo (hi + 1 - lo)).filterMap
    (fun k => dlookup segments (pfx ++ "_phase_" ++ toString k))).flatten

/-! ## clean_segment (src/segmentation.py lines 81-111)

The numeric routines of neurokit2 are external collaborators; they enter the
model as the fields of a CleanLib value.  The methods_dict of lines 93-101
maps each supported name to a call of nk.ecg_clean with that method, so the
dispatch is modelled by passing the method name through to ecg_clean. -/

/-- External signal-processing callables used by clean_segment. -/
structure CleanLib (α : Type) where
  signal_sanitize : List α → List α
  ecg_clean : String → List α → Nat → List α
  ecg_peaks : List α → Nat → List Nat

/-- The keys of methods_dict (lines 93-101). -/
def supported_methods : List String :=
  ["neurokit", "pantompkins1985", "hamilton2002", "elgendi2010",
   "engzeemod2012", "vg", "biosppy"]

/-- Column assignment cleaned_segment[EcgWaveform] = w: replace the waveform
column of a segment positionally. -/
def setWaveform {α : Type} (segment : List (Sample α)) (w : List α) : List (Sample α) :=
  segment.zipWith (fun s v => { s with EcgWaveform := v }) w

/-- Model of clean_segment (lines 81-111).  Mirrors the source statement by
statement: the unsupported-method check raises ValueError; line 107 writes
the sanitized waveform into the copied segment; line 108 then assigns
methods_dict[method](segment[EcgWaveform], sampling_rate) — computed from the
original segment column, overwriting the sanitized column; line 109 runs peak
detection on the waveform column of the resulting cleaned segment. -/
def clean_segment {α : Type} (lib : CleanLib α) (segment : List (Sample α))
    (sampling_rate : Nat) (method : String) :
    Except String (List (Sample α) × List Nat) :=
  if method ∈ supported_methods then
    let cleaned_segment := segment
    let cleaned_segment := setWaveform cleaned_segment
      (lib.signal_sanitize (cleaned_segment.map (fun s => s.EcgWaveform)))
    let cleaned_segment := setWaveform cleaned_segment
      (lib.ecg_clean method (segment.map (fun s => s.EcgWaveform)) sampling_rate)
    let rpeaks := lib.ecg_peaks (cleaned_segment.map (fun s => s.EcgWaveform)) sampling_rate
    Except.ok (cleaned_segment, rpeaks)
  else
    Except.error ("Method " ++ method ++ " is not supported.")

/-- Specification-side cleaned waveform (spec section 4.5): sanitize the raw
amplitude sequence, then apply the selected cleaning transform to the
sanitized sequence. -/
def cleanPipelineSpec {α : Type} (lib : CleanLib α) (segment : List (Sample α))
    (sampling_rate : Nat) (method : String) : List α :=
  lib.ecg_clean method (lib.signal_sanitize (segment.map (fun s => s.EcgWaveform)))
    sampling_rate

/-! ## remove_short_segments (src/segmentation.py lines 113-145) -/

/-- Default of the min_length parameter (line 113). -/
def min_length_default : Nat := 1000

/-- Keep test of lines 131 and 140, negated: a segment survives filtering
when its reference is not null and its row count reaches the threshold. -/
def keepSeg {α : Type} (min_length : Nat) : Option (List (Sample α)) → Bool
  | none => false
  | some s => decide (min_length ≤ s.length)

/-- A raw segment collection: participant name to segment name to segment
(possibly null). -/
abbrev RawColl (α : Type) := List (String × List (String × Option (List (Sample α))))

/-- A cleaned segment collection: participant name to method name to segment
name to segment (possibly null). -/
abbrev CleanColl (α : Type) := List (String × List (String × List (String × Option (List (Sample α)))))

/-- Model of remove_short_segments (lines 113-145): delete in place, from the
raw collection and from the cleaned collection independently, every innermost
entry whose value is null or shorter than min_length.  Iterating over
list(keys) and deleting from the dict is the same as filtering the inner dict
while keeping outer keys. -/
def remove_short_segments {α : Type} (all_segments : RawColl α)
    (cleaned_segments : CleanColl α) (min_length : Nat) : RawColl α × CleanColl α :=
  (all_segments.map
     (fun q => (q.1, q.2.filter (fun s => keepSeg min_length s.2))),
   cleaned_segments.map
     (fun q => (q.1, q.2.map (fun m => (m.1, m.2.filter (fun s => keepSeg min_length s.2))))))

/-! ## Batch loading (src/data_preprocessing.py lines 5-85)

File contents are opaque here: a DataFrame is a value of the parameter type δ,
and a participant folder records which of the four input files are present and
with what content.  Python returns tuples of varying arity from
load_data_for_participant, so its result is modelled as a list of optional
frames, with the caller's 4-way tuple unpacking made explicit. -/

/-- Which input files a participant folder provides (an absent file is none):
an ECG csv inside the ECG subfolder, SIMU/log_event.csv, SIMU/cog_evals.csv
and the per-participant error tracking sheet. -/
structure ParticipantFolder (δ : Type) where
  ecg_file : Option δ
  log_event : Option δ
  cog_evals : Option δ
  error_file : Option δ

/-- External pandas timestamp post-processing applied on the success path
(lines 40-48): datetime parsing and the millisecond column, per frame. -/
structure PandasLib (δ : Type) where
  ecg_timestamps : δ → δ
  log_timestamps : δ → δ

/-- Model of load_data_for_participant (lines 5-53).  When the ECG file, the
event log and the cognitive evaluations all exist, the function returns the
4-tuple of line 50 — unless the error sheet is missing, in which case error_df
was never assigned and line 50 raises UnboundLocalError.  Otherwise it prints
a diagnostic and returns the 3-tuple (None, None, None) of line 53. -/
def load_data_for_participant {δ : Type} (lib : PandasLib δ)
    (pf : ParticipantFolder δ) : Except String (List (Option δ)) :=
  match pf.ecg_file, pf.log_event, pf.cog_evals with
  | some ecg, some log, some cog =>
    match pf.error_file with
    | some err =>
      Except.ok [some (lib.ecg_timestamps ecg), some (lib.log_timestamps log),
                 some cog, some err]
    | none => Except.error "UnboundLocalError: error_df"
  | _, _, _ => Except.ok [none, none, none]

/-- Python tuple unpacking a, b, c, d = vals: succeeds only on exactly four
values, otherwise raises ValueError. -/
def unpack4 {δ : Type} (vals : List (Option δ)) :
    Except String (Option δ × Option δ × Option δ × Option δ) :=
  match vals with
  | [a, b, c, d] => Except.ok (a, b, c, d)
  | _ => Except.error "ValueError: not enough values to unpack (expected 4)"

/-- The participant loop of load_all_data (lines 70-79): per folder, load and
unpack, then record the frames in the three dicts when present. -/
def loadAllAux {δ : Type} (lib : PandasLib δ) :
    List (String × ParticipantFolder δ) →
    List (String × (δ × δ)) → List (String × δ) → List (String × δ) →
    Except String (List (String × (δ × δ)) × List (String × δ) × List (String × δ))
  | [], d1, d2, d3 => Except.ok (d1, d2, d3)
  | (name, pf) :: rest, d1, d2, d3 =>
    match load_data_for_participant lib pf with
    | Except.error e => Except.error e
    | Except.ok vals =>
      match unpack4 vals with
      | Except.error e => Except.error e
      | Except.ok (ecg, log, cog, err) =>
        let d1' := match ecg, log with
          | some e, some l => dinsert d1 name (e, l)
          | _, _ => d1
        let d2' := match cog with
          | some c => dinsert d2 name c
          | none => d2
        let d3' := match err with
          | some er => dinsert d3 name er
          | none => d3
        loadAllAux lib rest d1' d2' d3'

/-- Model of load_all_data (lines 55-85) over the subdirectories of the root
folder (the os.path.isdir filter is reflected by listing only directories);
the annex Participants.csv read of lines 81-84 is outward of the participant
loop and enters as an optional frame. -/
def load_all_data {δ : Type} (lib : PandasLib δ)
    (folders : List (String × ParticipantFolder δ)) (annex : Option δ) :
    Except String
      (List (String × (δ × δ)) × List (String × δ) × List (String × δ) × Option δ) :=
  match loadAllAux lib folders [] [] [] with
  | Except.error e => Except.error e
  | Except.ok (d1, d2, d3) => Except.ok (d1, d2, d3, annex)

/-! ## Concrete inputs used by the counterexample and witness theorems -/

/-- An event log whose first begin event has neither an exact end event nor a
condition-level fallback end event, followed by a well-paired condition. -/
def logMissing : List EventRec :=
  [⟨"A_x_begin", 0⟩, ⟨"C_begin", 5⟩, ⟨"C_end", 10⟩]

/-- A two-sample ECG stream for the missing-boundary scenario. -/
def ecgMissing : List (Sample Int) := [⟨3, 0⟩, ⟨7, 0⟩]

/-- An event log where fixation_cross_begin resolves only through the
condition-level fallback event fixation_end. -/
def logFix : List EventRec :=
  [⟨"fixation_cross_begin", 0⟩, ⟨"fixation_end", 100000⟩]

/-- A three-sample ECG stream for the fixation-cross scenario. -/
def ecgFix : List (Sample Int) := [⟨10000, 1⟩, ⟨50000, 2⟩, ⟨90000, 3⟩]

/-- An event log with two conditions, phases 1 and 2 of condition C (phase 2
resolving through the fallback C_end) and phase 7 of condition 0B. -/
def logC : List EventRec :=
  [⟨"C_phase_1_begin", 0⟩, ⟨"C_phase_1_end", 10⟩,
   ⟨"C_phase_2_begin", 20⟩, ⟨"C_end", 40⟩,
   ⟨"0B_phase_7_begin", 50⟩, ⟨"0B_phase_7_end", 60⟩]

/-- A three-sample ECG stream for the phase-combination scenario. -/
def ecgC : List (Sample Int) := [⟨5, 11⟩, ⟨25, 12⟩, ⟨55, 13⟩]

/-- The loop state reached by the event loop on logC and ecgC. -/
def stC : SegState Int :=
  ⟨[("C_phase_1", [⟨5, 11⟩]), ("C_phase_2", [⟨25, 12⟩]), ("0B_phase_7", [⟨55, 13⟩])],
   ["C", "0B"], "0B"⟩

/-- A cleaning library instance whose sanitizer shifts every amplitude by one
and whose cleaning transform and peak detector are the identity-like stubs:
it separates the raw sequence from the sanitized sequence. -/
def probeLib : CleanLib Int :=
  { signal_sanitize := fun l => l.map (fun v => v + 1)
    ecg_clean := fun _ sig _ => sig
    ecg_peaks := fun _ _ => [0] }

/-- A one-sample segment for the cleaning-order scenario. -/
def probeSeg : List (Sample Int) := [⟨0, 5⟩]

/-- A pandas stub whose timestamp conversions are the identity. -/
def idPandas : PandasLib Nat := { ecg_timestamps := id, log_timestamps := id }

/-- A complete participant folder: all four input files present. -/
def folderComplete : ParticipantFolder Nat :=
  { ecg_file := some 10, log_event := some 11, cog_evals := some 12, error_file := some 13 }

/-- A participant folder whose event log file is missing. -/
def folderNoLog : ParticipantFolder Nat :=
  { ecg_file := some 20, log_event := none, cog_evals := some 22, error_file := some 23 }

/-- Concrete raw collection used by the segment-filter witness. -/
def rawW : RawColl Int := [("P", [("a", some [⟨0, 0⟩]), ("b", none)])]

/-- Concrete cleaned collection used by the segment-filter witness. -/
def clW : CleanColl Int := [("P", [("neurokit", [("a", some [])])])]

/-- Two-level access all_segments[p][name] into a raw segment collection. -/
def rawLookup {α : Type} (raw : RawColl α) (p name : String) :
    Option (Option (List (Sample α))) :=
  match dlookup raw p with
  | some segs => dlookup segs name
  | none => none

/-- Three-level access cleaned_segments[p][m][name] into a cleaned segment
collection. -/
def cleanLookup {α : Type} (cl : CleanColl α) (p m name : String) :
    Option (Option (List (Sample α))) :=
  match dlookup cl p with
  | some ms =>
    match dlookup ms m with
    | some segs => dlookup segs name
    | none => none
  | none => none

/-! # Lemmas and theorems -/

/-! ## Dictionary lemmas -/

theorem dlookup_dinsert_self {β : Type} (m : List (String × β)) (k : String) (v : β) :
    dlookup (dinsert m k v) k = some v := by
  induction m with
  | nil => simp [dinsert, dlookup]
  | cons q t ih =>
    obtain ⟨k', v'⟩ := q
    by_cases hk : k' = k
    · simp [dinsert, dlookup, hk]
    · simp [dinsert, dlookup, hk, ih]

theorem dlookup_dinsert_other {β : Type} (m : List (String × β)) (k key : String)
    (v : β) (hne : k ≠ key) : dlookup (dinsert m k v) key = dlookup m key := by
  induction m with
  | nil => simp [dinsert, dlookup, hne]
  | cons q t ih =>
    obtain ⟨k', v'⟩ := q
    by_cases hk : k' = k
    · subst hk
      simp [dinsert, dlookup, hne]
    · simp [dinsert, dlookup, hk, ih]

theorem dlookup_map_value {β γ : Type} (l : List (String × β)) (f : β → γ) (k : String) :
    dlookup (l.map (fun q => (q.1, f q.2))) k = (dlookup l k).map f := by
  induction l with
  | nil => simp [dlookup]
  | cons q t ih =>
    obtain ⟨k', v⟩ := q
    by_cases hk : k' = k
    · simp [dlookup, hk]
    · simp [dlookup, hk, ih]

theorem keys_map_value {β γ : Type} (l : List (String × β)) (f : β → γ) :
    (l.map (fun q => (q.1, f q.2))).map Prod.fst = l.map Prod.fst := by
  induction l with
  | nil => rfl
  | cons q t ih => simp [ih]

theorem dlookup_none_of_not_mem {β : Type} (l : List (String × β)) (k : String)
    (h : k ∉ l.map Prod.fst) : dlookup l k = none := by
  induction l with
  | nil => rfl
  | cons q t ih =>
    obtain ⟨k', v⟩ := q
    simp only [List.map_cons, List.mem_cons] at h
    push_neg at h
    simp [dlookup, Ne.symm h.1, ih h.2]

theorem dlookup_filter_none_of_not_mem {β : Type} (l : List (String × β))
    (g : β → Bool) (k : String) (h : k ∉ l.map Prod.fst) :
    dlookup (l.filter (fun q => g q.2)) k = none := by
  induction l with
  | nil => rfl
  | cons q t ih =>
    obtain ⟨k', v⟩ := q
    simp only [List.map_cons, List.mem_cons] at h
    push_neg at h
    by_cases hg : g v
    · simp [List.filter, hg, dlookup, Ne.symm h.1, ih h.2]
    · simp [List.filter, hg, ih h.2]

theorem dlookup_filter {β : Type} (l : List (String × β)) (g : β → Bool) (k : String)
    (hnd : (l.map Prod.fst).Nodup) :
    dlookup (l.filter (fun q => g q.2)) k =
      match dlookup l k with
      | some v => if g v then some v else none
      | none => none := by
  induction l with
  | nil => rfl
  | cons q t ih =>
    obtain ⟨k', v⟩ := q
    simp only [List.map_cons, List.nodup_cons] at hnd
    by_cases hk : k' = k
    · subst hk
      by_cases hg : g v
      · simp [List.filter, hg, dlookup]
      · simp [List.filter, hg, dlookup,
          dlookup_filter_none_of_not_mem t g k' hnd.1]
    · by_cases hg : g v
      · simp [List.filter, hg, dlookup, hk, ih hnd.2]
      · simp [List.filter, hg, dlookup, hk, ih hnd.2]

/-! ## Deduplication lemmas -/

theorem mem_uniqueAux {γ : Type} [DecidableEq γ] (l : List γ) (seen : List γ) (a : γ) :
    a ∈ uniqueAux l seen ↔ a ∈ l ∧ a ∉ seen := by
  induction l generalizing seen with
  | nil => simp [uniqueAux]
  | cons b t ih =>
    by_cases hb : b ∈ seen
    · simp only [uniqueAux, hb, if_pos, ih, List.mem_cons]
      constructor
      · rintro ⟨h1, h2⟩
        exact ⟨Or.inr h1, h2⟩
      · rintro ⟨h1, h2⟩
        rcases h1 with he | ht
        · exact absurd (he ▸ hb) h2
        · exact ⟨ht, h2⟩
    · simp only [uniqueAux, hb, if_neg, List.mem_cons, ih, not_false_iff]
      constructor
      · rintro (he | ⟨h1, h2⟩)
        · exact ⟨Or.inl he, he ▸ hb⟩
        · simp only [List.mem_cons, not_or] at h2
          exact ⟨Or.inr h1, h2.2⟩
      · rintro ⟨he | ht, h2⟩
        · exact Or.inl he
        · by_cases hab : a = b
          · exact Or.inl hab
          · exact Or.inr ⟨ht, by simp [List.mem_cons, hab, h2]⟩

theorem nodup_uniqueAux {γ : Type} [DecidableEq γ] (l : List γ) (seen : List γ) :
    (uniqueAux l seen).Nodup := by
  induction l generalizing seen with
  | nil => simp [uniqueAux]
  | cons b t ih =>
    by_cases hb : b ∈ seen
    · simpa [uniqueAux, hb] using ih seen
    · simp only [uniqueAux, hb, if_neg, not_false_iff, List.nodup_cons]
      refine ⟨fun hmem => ?_, ih (b :: seen)⟩
      exact ((mem_uniqueAux t (b :: seen) b).mp hmem).2 (List.mem_cons_self b seen)

theorem mem_uniqueList {γ : Type} [DecidableEq γ] (l : List γ) (a : γ) :
    a ∈ uniqueList l ↔ a ∈ l := by
  simp [uniqueList, mem_uniqueAux]

theorem nodup_uniqueList {γ : Type} [DecidableEq γ] (l : List γ) :
    (uniqueList l).Nodup := nodup_uniqueAux l []

/-! ## Lookup of the first matching log row -/

theorem firstTime_none_iff (log : List EventRec) (name : String) :
    firstTime log name = none ↔ name ∉ eventNames log := by
  induction log with
  | nil => simp [firstTime, eventNames]
  | cons r t ih =>
    by_cases hr : r.events = name
    · simp [firstTime, hr, eventNames]
    · have hc : eventNames (r :: t) = r.events :: eventNames t := rfl
      rw [hc, List.mem_cons, not_or]
      simp only [firstTime, if_neg hr]
      rw [ih]
      constructor
      · intro h
        exact ⟨fun he => hr he.symm, h⟩
      · intro h
        exact h.2

theorem firstTime_isSome_of_mem (log : List EventRec) (name : String)
    (h : name ∈ eventNames log) : ∃ t, firstTime log name = some t := by
  rcases he : firstTime log name with _ | t
  · exact absurd h ((firstTime_none_iff log name).mp he)
  · exact ⟨t, rfl⟩

theorem mem_of_firstTime_isSome (log : List EventRec) (name : String) (t : Int)
    (h : firstTime log name = some t) : name ∈ eventNames log := by
  by_contra hmem
  rw [(firstTime_none_iff log name).mpr hmem] at h
  simp at h

theorem dlookup_singleton_inv {β : Type} (k : String) (v : β) (p : String) (w : β)
    (h : dlookup [(k, v)] p = some w) : w = v := by
  by_cases hk : k = p
  · simp [dlookup, hk] at h
    exact h.symm
  · simp [dlookup, hk] at h

/-! ## Claim C6: inclusive slicing of the signal stream -/

/-- C6: for a resolved (name, begin_time, end_time) triple, the extracted
segment consists of exactly the signal samples with
begin_time ≤ timestamp_ms ≤ end_time, inclusive at both ends (it is the
corresponding sublist of the stream), and when no sample falls in the window
the result is the empty segment rather than an error (extraction is total:
emptyness is characterized, never raised). -/
theorem sliceSeg_inclusive_window {α : Type} (ecg : List (Sample α)) (b e : Int) :
    (∀ s, s ∈ sliceSeg ecg b e ↔ (s ∈ ecg ∧ b ≤ s.timestamp_ms ∧ s.timestamp_ms ≤ e)) ∧
    (sliceSeg ecg b e).Sublist ecg ∧
    (sliceSeg ecg b e = [] ↔ ∀ s ∈ ecg, ¬(b ≤ s.timestamp_ms ∧ s.timestamp_ms ≤ e)) := by
  refine ⟨fun s => ?_, List.filter_sublist ecg, ?_⟩
  · simp [sliceSeg, List.mem_filter]
  · rw [sliceSeg, List.filter_eq_nil_iff]
    constructor
    · intro h s hs hrange
      have := h s hs
      simp [hrange.1, hrange.2] at this
    · intro h s hs
      have := h s hs
      simp only [Bool.and_eq_true, decide_eq_true_eq, not_and]
      intro hb
      intro hcon
      exact this ⟨hb, hcon⟩

/-- C6 witness: membership instance of the inclusive-window characterization
at a concrete stream and window. -/
theorem sliceSeg_inclusive_window_witness :
    (⟨5, 0⟩ : Sample Int) ∈ sliceSeg [⟨5, 0⟩] 0 10 :=
  ((sliceSeg_inclusive_window [⟨5, (0 : Int)⟩] 0 10).1 ⟨5, 0⟩).mpr
    ⟨by decide, by decide, by decide⟩

/-! ## Claim C9: cleaning method dispatch -/

/-- C9: clean_segment fails with the unsupported-method ValueError exactly
when the method name is outside the fixed supported set, and returns a
cleaned segment (an ok result) exactly when the name is in the set: an error
is surfaced to the caller and no cleaned segment is produced. -/
theorem clean_segment_unsupported_method {α : Type} (lib : CleanLib α)
    (segment : List (Sample α)) (sampling_rate : Nat) (method : String) :
    (method ∉ supported_methods ↔
      clean_segment lib segment sampling_rate method =
        Except.error ("Method " ++ method ++ " is not supported.")) ∧
    (method ∈ supported_methods ↔
      ∃ r, clean_segment lib segment sampling_rate method = Except.ok r) := by
  by_cases hm : method ∈ supported_methods
  · constructor
    · simp [clean_segment, hm]
    · simp [clean_segment, hm]
  · constructor
    · simp [clean_segment, hm]
    · simp [clean_segment, hm]

/-! ## Claim C4: the segment filter removes all and only the short or null
segments -/

/-- C4: remove_short_segments, applied to the raw and the cleaned collection
independently, keeps an innermost binding exactly when its value is non-null
and at least min_length samples long, and every kept binding is unchanged
(the same value is found before and after); the default threshold is 1000.
The hypotheses state that inner segment dicts have no duplicate keys, which
Python dicts guarantee. -/
theorem remove_short_segments_removes_all_and_only {α : Type} (raw : RawColl α)
    (cl : CleanColl α) (n : Nat)
    (hraw : ∀ p segs, dlookup raw p = some segs → (segs.map Prod.fst).Nodup)
    (hcl : ∀ p ms m segs, dlookup cl p = some ms → dlookup ms m = some segs →
      (segs.map Prod.fst).Nodup) :
    (∀ p name v, rawLookup (remove_short_segments raw cl n).1 p name = some v ↔
      (rawLookup raw p name = some v ∧ keepSeg n v = true)) ∧
    (∀ p m name v, cleanLookup (remove_short_segments raw cl n).2 p m name = some v ↔
      (cleanLookup cl p m name = some v ∧ keepSeg n v = true)) ∧
    min_length_default = 1000 := by
  refine ⟨fun p name v => ?_, fun p m name v => ?_, rfl⟩
  · rw [rawLookup, rawLookup, remove_short_segments]
    rw [dlookup_map_value raw
      (fun segs : List (String × Option (List (Sample α))) =>
        segs.filter (fun s => keepSeg n s.2)) p]
    rcases hp : dlookup raw p with _ | segs
    · simp
    · simp only [Option.map_some']
      rw [dlookup_filter segs (keepSeg n) name (hraw p segs hp)]
      rcases hn : dlookup segs name with _ | w
      · simp
      · by_cases hkeep : keepSeg n w
        · simp [hkeep]
          intro h
          subst h
          exact hkeep
        · simp only [hkeep, if_neg, Bool.false_eq_true, not_false_iff]
          constructor
          · intro hcon
            cases hcon
          · rintro ⟨hv, hk⟩
            cases hv
            exact absurd hk hkeep
  · rw [cleanLookup, cleanLookup, remove_short_segments]
    rw [dlookup_map_value cl
      (fun ms : List (String × List (String × Option (List (Sample α)))) =>
        ms.map (fun mm => (mm.1, mm.2.filter (fun s => keepSeg n s.2)))) p]
    rcases hp : dlookup cl p with _ | ms
    · simp
    · simp only [Option.map_some']
      rw [dlookup_map_value ms
        (fun segs : List (String × Option (List (Sample α))) =>
          segs.filter (fun s => keepSeg n s.2)) m]
      rcases hm : dlookup ms m with _ | segs
      · simp
      · simp only [Option.map_some']
        rw [dlookup_filter segs (keepSeg n) name (hcl p ms m segs hp hm)]
        rcases hn : dlookup segs name with _ | w
        · simp
        · by_cases hkeep : keepSeg n w
          · simp [hkeep]
            intro h
            subst h
            exact hkeep
          · simp only [hkeep, if_neg, Bool.false_eq_true, not_false_iff]
            constructor
            · intro hcon
              cases hcon
            · rintro ⟨hv, hk⟩
              cases hv
              exact absurd hk hkeep

/-- C4 witness: instance of the filtering characterization on a concrete
pair of collections at threshold 1 (the null segment b is removed). -/
theorem remove_short_segments_removes_all_and_only_witness :
    rawLookup (remove_short_segments rawW clW 1).1 "P" "b" =
        some (none : Option (List (Sample Int))) ↔
      (rawLookup rawW "P" "b" = some none ∧ keepSeg 1 (none : Option (List (Sample Int))) = true) :=
  (remove_short_segments_removes_all_and_only rawW clW 1
    (fun p segs h => by
      have hv := dlookup_singleton_inv _ _ _ _ h
      subst hv
      decide)
    (fun p ms m segs h1 h2 => by
      have hv := dlookup_singleton_inv _ _ _ _ h1
      subst hv
      have hw := dlookup_singleton_inv _ _ _ _ h2
      subst hw
      decide)).1 "P" "b" (none : Option (List (Sample Int)))

/-! ## Claim C10: the segment filter deletes only innermost entries -/

/-- C10: remove_short_segments never deletes participant keys of the raw
collection nor participant or method keys of the cleaned collection: the key
structure of both collections is preserved exactly (a fully emptied inner
dict keeps its key, mapping to an empty dict). -/
theorem remove_short_segments_preserves_keys {α : Type} (raw : RawColl α)
    (cl : CleanColl α) (n : Nat) :
    ((remove_short_segments raw cl n).1.map Prod.fst = raw.map Prod.fst) ∧
    ((remove_short_segments raw cl n).2.map Prod.fst = cl.map Prod.fst) ∧
    ((remove_short_segments raw cl n).2.map (fun q => (q.1, q.2.map Prod.fst)) =
      cl.map (fun q => (q.1, q.2.map Prod.fst))) := by
  refine ⟨keys_map_value raw _, keys_map_value cl _, ?_⟩
  rw [remove_short_segments]
  induction cl with
  | nil => rfl
  | cons q t ih =>
    simp only [List.map_cons, List.cons.injEq]
    exact ⟨by rw [keys_map_value], ih⟩

/-! ## Claim C1: a begin event with no resolvable end boundary -/

/-- Every error raised inside one iteration of the event loop is the
IndexError of a .values[0] access on an empty selection. -/
theorem stepEvent_error_msg {α : Type} (log : List EventRec) (ecg : List (Sample α))
    (st : SegState α) (event : String) (msg : String)
    (h : stepEvent log ecg st event = Except.error msg) : msg = "IndexError" := by
  by_cases hb : pyEndsWith event "_begin" = true
  · rcases h1 : firstTime log event with _ | bt
    · simp [stepEvent, hb, h1] at h
      exact h.symm
    · rcases h2 : firstTime log (pyDropRight event 6 ++ "_end") with _ | et
      · rcases h3 : firstTime log (pySplitHead (pyDropRight event 6 ++ "_end") ++ "_end")
          with _ | et2
        · simp [stepEvent, hb, h1, h2, h3] at h
          exact h.symm
        · simp [stepEvent, hb, h1, h2, h3] at h
      · simp [stepEvent, hb, h1, h2] at h
  · simp [stepEvent, hb] at h

/-- When some event of the list makes its loop iteration raise from every
state, the whole event loop raises that IndexError. -/
theorem runEvents_all_errors {α : Type} (log : List EventRec) (ecg : List (Sample α))
    (event : String)
    (hstep : ∀ st, stepEvent log ecg st event = Except.error "IndexError") :
    ∀ es st0, event ∈ es → runEvents log ecg st0 es = Except.error "IndexError" := by
  intro es
  induction es with
  | nil =>
    intro st0 hmem
    simp at hmem
  | cons b t ih =>
    intro st0 hmem
    rcases hs : stepEvent log ecg st0 b with msg | st1
    · simp only [runEvents, hs]
      rw [stepEvent_error_msg log ecg st0 b msg hs]
    · rcases List.mem_cons.mp hmem with he | ht
      · rw [← he, hstep st0] at hs
        cases hs
      · simp only [runEvents, hs]
        exact ih st1 ht

/-- C1 counterexample: in the log logMissing, the event A_x_begin has neither
an exact A_x_end event nor the condition-level fallback A_end, and
segmentation_ecg raises an IndexError instead of skipping the event silently;
no segment map is produced, so the well-paired C event also yields nothing. -/
theorem segmentation_missing_boundary_raises :
    segmentation_ecg ecgMissing logMissing = Except.error "IndexError" := rfl

/-- C1 amended: a begin event for which neither the exact same-named end
event nor the condition-level fallback end event exists makes
segmentation_ecg raise an IndexError (the .values[0] access on the empty
fallback selection), aborting the whole call: no segment map is returned and
no other event yields a segment. -/
theorem segmentation_missing_boundary_aborts {α : Type} (log : List EventRec)
    (ecg : List (Sample α)) (event : String)
    (hmem : event ∈ eventNames log)
    (hbeg : pyEndsWith event "_begin" = true)
    (hnoend : firstTime log (pyDropRight event 6 ++ "_end") = none)
    (hnofb : firstTime log (pySplitHead (pyDropRight event 6 ++ "_end") ++ "_end") = none) :
    segmentation_ecg ecg log = Except.error "IndexError" := by
  have hstep : ∀ st, stepEvent log ecg st event = Except.error "IndexError" := by
    intro st
    obtain ⟨bt, hbt⟩ := firstTime_isSome_of_mem log event hmem
    simp [stepEvent, hbeg, hbt, hnoend, hnofb]
  have hmemu : event ∈ uniqueList (eventNames log) := (mem_uniqueList _ _).mpr hmem
  have hrun := runEvents_all_errors log ecg event hstep
    (uniqueList (eventNames log)) ⟨[], [], ""⟩ hmemu
  simp only [segmentation_ecg, eventSegResult, hrun]

/-- C1 witness: the amended abort property instantiated on the concrete
missing-boundary log. -/
theorem segmentation_missing_boundary_aborts_witness :
    segmentation_ecg ecgMissing logMissing = Except.error "IndexError" :=
  segmentation_missing_boundary_aborts logMissing ecgMissing "A_x_begin"
    (by decide) (by decide) (by decide) (by decide)

/-! ## Claim C8: discovered condition order -/

theorem uniqueAux_congr {γ : Type} [DecidableEq γ] :
    ∀ (l s1 s2 : List γ), (∀ x, x ∈ s1 ↔ x ∈ s2) → uniqueAux l s1 = uniqueAux l s2 := by
  intro l
  induction l with
  | nil => intro s1 s2 _; rfl
  | cons b t ih =>
    intro s1 s2 h
    by_cases hb : b ∈ s1
    · simp only [uniqueAux, hb, if_pos, (h b).mp hb, ih s1 s2 h]
    · have hb2 : b ∉ s2 := fun hx => hb ((h b).mpr hx)
      simp only [uniqueAux, hb, hb2, if_neg, not_false_iff]
      rw [ih (b :: s1) (b :: s2) (by intro x; simp [h x])]

theorem codeOf_eq_some (ev c : String) :
    codeOf ev = some c ↔
      (pyEndsWith ev "_begin" = true ∧ pySplitHead (pyDropRight ev 6) = c ∧
        c ∈ condition_prefixes) := by
  constructor
  · intro h
    by_cases hb : pyEndsWith ev "_begin" = true
    · by_cases hp : pySplitHead (pyDropRight ev 6) ∈ condition_prefixes
      · have hh : pySplitHead (pyDropRight ev 6) = c := by
          simp [codeOf, hb, hp] at h
          exact h
        exact ⟨hb, hh, hh ▸ hp⟩
      · simp [codeOf, hb, hp] at h
    · simp [codeOf, hb] at h
  · rintro ⟨hb, hh, hcp⟩
    have hp : pySplitHead (pyDropRight ev 6) ∈ condition_prefixes := hh.symm ▸ hcp
    simp [codeOf, hb, hp, hh]
    exact hcp

/-- Projection of one successful loop iteration onto the pair
(condition, order_of_conditions): stepEvent acts on it as ordStep. -/
theorem stepEvent_ok_proj {α : Type} (log : List EventRec) (ecg : List (Sample α))
    (st : SegState α) (e : String) (st' : SegState α)
    (h : stepEvent log ecg st e = Except.ok st') :
    (st'.condition, st'.order_of_conditions) =
      ordStep (st.condition, st.order_of_conditions) e := by
  by_cases hb : pyEndsWith e "_begin" = true
  · rcases h1 : firstTime log e with _ | bt
    · simp [stepEvent, hb, h1] at h
    · rcases h2 : firstTime log (pyDropRight e 6 ++ "_end") with _ | et
      · rcases h3 : firstTime log (pySplitHead (pyDropRight e 6 ++ "_end") ++ "_end")
          with _ | et2
        · simp [stepEvent, hb, h1, h2, h3] at h
        · simp only [stepEvent, hb, if_pos, h1, h2, h3, Except.ok.injEq] at h
          subst h
          by_cases hf : pyDropRight e 6 = "fixation_cross"
          · simp [hf, ordStep, hb]
          · simp [hf, ordStep, hb]
      · simp only [stepEvent, hb, if_pos, h1, h2, Except.ok.injEq] at h
        subst h
        simp [ordStep, hb]
  · simp only [stepEvent, hb, if_neg, Bool.false_eq_true, not_false_iff,
      Except.ok.injEq] at h
    subst h
    simp [ordStep, hb]

/-- Projection of a successful run of the event loop onto the pair
(condition, order_of_conditions): the loop folds ordStep over the events. -/
theorem runEvents_ok_proj {α : Type} (log : List EventRec) (ecg : List (Sample α)) :
    ∀ (es : List String) (st st' : SegState α),
      runEvents log ecg st es = Except.ok st' →
      (st'.condition, st'.order_of_conditions) =
        es.foldl ordStep (st.condition, st.order_of_conditions) := by
  intro es
  induction es with
  | nil =>
    intro st st' h
    simp only [runEvents, Except.ok.injEq] at h
    subst h
    rfl
  | cons b t ih =>
    intro st st' h
    rcases hs : stepEvent log ecg st b with msg | st1
    · simp only [runEvents, hs] at h
      exact Except.noConfusion h
    · simp only [runEvents, hs] at h
      rw [List.foldl_cons, ← stepEvent_ok_proj log ecg st b st1 hs]
      exact ih st1 st' h

/-- The condition-order fold, from any state whose condition is already
recorded when it is a vocabulary code, appends exactly the first-seen
deduplication of the condition codes contributed by the events. -/
theorem foldl_ordStep_spec :
    ∀ (events : List String) (cond : String) (order : List String),
      (cond ∈ condition_prefixes → cond ∈ order) →
      (events.foldl ordStep (cond, order)).2 =
        order ++ uniqueAux (events.filterMap codeOf) order := by
  intro events
  induction events with
  | nil =>
    intro cond order _
    simp [uniqueAux]
  | cons ev t ih =>
    intro cond order hinv
    rw [List.foldl_cons, List.filterMap_cons]
    by_cases hb : pyEndsWith ev "_begin" = true
    · by_cases hp : pySplitHead (pyDropRight ev 6) ∈ condition_prefixes
      · have hc : codeOf ev = some (pySplitHead (pyDropRight ev 6)) := by
          simp [codeOf, hb, hp]
        have hlen : (pySplitHead (pyDropRight ev 6)).length ≤ 2 := by
          have hp' := hp
          simp only [condition_prefixes, List.mem_cons, List.mem_singleton,
            List.not_mem_nil, or_false] at hp'
          rcases hp' with h | h | h <;> rw [h] <;> decide
        by_cases hmem : pySplitHead (pyDropRight ev 6) ∈ order
        · have hstep : ordStep (cond, order) ev = (pySplitHead (pyDropRight ev 6), order) := by
            simp [ordStep, hb, orderUpdate, hlen, hmem]
          rw [hstep, ih _ order (fun _ => hmem), hc]
          simp [uniqueAux, hmem]
        · have hstep : ordStep (cond, order) ev =
              (pySplitHead (pyDropRight ev 6), order ++ [pySplitHead (pyDropRight ev 6)]) := by
            simp [ordStep, hb, orderUpdate, hlen, hmem, hp]
          rw [hstep, ih _ (order ++ [pySplitHead (pyDropRight ev 6)])
            (fun _ => by simp), hc]
          simp only [uniqueAux, hmem, if_neg, not_false_iff, List.append_assoc,
            List.singleton_append]
          rw [uniqueAux_congr (t.filterMap codeOf)
            (order ++ [pySplitHead (pyDropRight ev 6)])
            (pySplitHead (pyDropRight ev 6) :: order) (by intro x; simp; tauto)]
      · have hc : codeOf ev = none := by
          simp [codeOf, hb, hp]
        rw [hc]
        by_cases hlen : (pySplitHead (pyDropRight ev 6)).length ≤ 2
        · have hstep : ordStep (cond, order) ev = (pySplitHead (pyDropRight ev 6), order) := by
            simp [ordStep, hb, orderUpdate, hlen, hp]
          rw [hstep]
          exact ih _ order (fun hx => absurd hx hp)
        · have hstep : ordStep (cond, order) ev = (cond, order) := by
            by_cases hcp : cond ∈ condition_prefixes
            · simp [ordStep, hb, orderUpdate, hlen, hcp, hinv hcp]
            · simp [ordStep, hb, orderUpdate, hlen, hcp]
          rw [hstep]
          exact ih cond order hinv
    · have hc : codeOf ev = none := by
        simp [codeOf, hb]
      have hstep : ordStep (cond, order) ev = (cond, order) := by
        simp [ordStep, hb]
      rw [hc, hstep]
      exact ih cond order hinv

/-- C8: the discovered condition order is exactly the first-seen
deduplication of the vocabulary codes occurring as leading tokens of begin
events: a code is in order_of_conditions exactly when it is one of C, 0B, 2B
and is the leading token of some begin event name, each code appears at most
once, the order is by first encounter (uniqueList keeps first occurrences in
encounter order), and the order computed by a successful run of the
segmentation event loop is this same deterministic function of the event
sequence. -/
theorem conditions_order_characterization (events : List String) :
    conditionsOrder events = uniqueList (events.filterMap codeOf) ∧
    (∀ c, c ∈ conditionsOrder events ↔
      (c ∈ condition_prefixes ∧
        ∃ ev ∈ events, pyEndsWith ev "_begin" = true ∧
          pySplitHead (pyDropRight ev 6) = c)) ∧
    (conditionsOrder events).Nodup ∧
    (∀ (ecg : List (Sample Int)) (log : List EventRec) (st' : SegState Int),
      eventSegResult ecg log = Except.ok st' →
      st'.order_of_conditions = conditionsOrder (uniqueList (eventNames log))) := by
  have hmain : conditionsOrder events = uniqueList (events.filterMap codeOf) := by
    rw [conditionsOrder, foldl_ordStep_spec events "" [] (by decide)]
    rfl
  refine ⟨hmain, fun c => ?_, ?_, ?_⟩
  · rw [hmain, mem_uniqueList, List.mem_filterMap]
    constructor
    · rintro ⟨ev, hev, hcode⟩
      obtain ⟨hb, hh, hcp⟩ := (codeOf_eq_some ev c).mp hcode
      exact ⟨hcp, ev, hev, hb, hh⟩
    · rintro ⟨hcp, ev, hev, hb, hh⟩
      exact ⟨ev, hev, (codeOf_eq_some ev c).mpr ⟨hb, hh, hcp⟩⟩
  · rw [hmain]
    exact nodup_uniqueList _
  · intro ecg log st' h
    have := runEvents_ok_proj log ecg (uniqueList (eventNames log)) ⟨[], [], ""⟩ st' h
    have h2 := congrArg Prod.snd this
    simpa [conditionsOrder] using h2

/-- C8 witness: the characterization applied to a concrete event sequence
with a repeated condition, a long leading token and a non-vocabulary code. -/
theorem conditions_order_characterization_witness :
    conditionsOrder ["C_phase_1_begin", "longname_begin", "A_begin", "0B_begin",
        "C_phase_2_begin"] =
      uniqueList (List.filterMap codeOf
        ["C_phase_1_begin", "longname_begin", "A_begin", "0B_begin",
         "C_phase_2_begin"]) :=
  (conditions_order_characterization
    ["C_phase_1_begin", "longname_begin", "A_begin", "0B_begin", "C_phase_2_begin"]).1

/-! ## Invariants of the discovered condition order -/

theorem ordStep_order_subset (p : String × List String) (ev : String)
    (h : p.2 ⊆ condition_prefixes) : (ordStep p ev).2 ⊆ condition_prefixes := by
  rcases p with ⟨cond, order⟩
  have h' : order ⊆ condition_prefixes := h
  rw [ordStep]
  by_cases hb : pyEndsWith ev "_begin" = true
  · rw [if_pos hb, orderUpdate]
    dsimp only
    set c' := if (pySplitHead (pyDropRight ev 6)).length ≤ 2
      then pySplitHead (pyDropRight ev 6) else cond
    by_cases hcc : c' ∈ condition_prefixes ∧ c' ∉ order
    · rw [if_pos hcc]
      refine List.append_subset.mpr ⟨h', ?_⟩
      intro x hx
      rw [List.mem_singleton] at hx
      exact hx ▸ hcc.1
    · rw [if_neg hcc]
      exact h'
  · rw [if_neg hb]
    exact h'

theorem foldl_ordStep_order_subset :
    ∀ (es : List String) (p : String × List String), p.2 ⊆ condition_prefixes →
      (es.foldl ordStep p).2 ⊆ condition_prefixes := by
  intro es
  induction es with
  | nil => intro p h; exact h
  | cons b t ih =>
    intro p h
    rw [List.foldl_cons]
    exact ih _ (ordStep_order_subset p b h)

theorem ordStep_order_nodup (p : String × List String) (ev : String)
    (h : p.2.Nodup) : (ordStep p ev).2.Nodup := by
  rcases p with ⟨cond, order⟩
  have h' : order.Nodup := h
  rw [ordStep]
  by_cases hb : pyEndsWith ev "_begin" = true
  · rw [if_pos hb, orderUpdate]
    dsimp only
    set c' := if (pySplitHead (pyDropRight ev 6)).length ≤ 2
      then pySplitHead (pyDropRight ev 6) else cond
    by_cases hcc : c' ∈ condition_prefixes ∧ c' ∉ order
    · rw [if_pos hcc]
      refine List.nodup_append.mpr ⟨h', List.nodup_singleton _, ?_⟩
      intro a ha hmem
      rw [List.mem_singleton] at hmem
      exact hcc.2 (hmem ▸ ha)
    · rw [if_neg hcc]
      exact h'
  · rw [if_neg hb]
    exact h'

theorem foldl_ordStep_order_nodup :
    ∀ (es : List String) (p : String × List String), p.2.Nodup →
      (es.foldl ordStep p).2.Nodup := by
  intro es
  induction es with
  | nil => intro p h; exact h
  | cons b t ih =>
    intro p h
    rw [List.foldl_cons]
    exact ih _ (ordStep_order_nodup p b h)

/-- The order accumulated by a successful run of the event loop from the
initial state is drawn from the fixed vocabulary and has no duplicates. -/
theorem eventSegResult_order_inv {α : Type} (ecg : List (Sample α)) (log : List EventRec)
    (st : SegState α) (h : eventSegResult ecg log = Except.ok st) :
    st.order_of_conditions ⊆ condition_prefixes ∧ st.order_of_conditions.Nodup := by
  rw [eventSegResult] at h
  have hproj := runEvents_ok_proj log ecg (uniqueList (eventNames log)) ⟨[], [], ""⟩ st h
  have horder := congrArg Prod.snd hproj
  dsimp only at horder
  rw [horder]
  exact ⟨foldl_ordStep_order_subset _ _ (by simp),
    foldl_ordStep_order_nodup _ _ (by simp)⟩

/-! ## Preservation of segment bindings across loop iterations -/

/-- The combined-phase insertion loop does not change the binding of a key
that is none of the combined names derived from the order list. -/
theorem addCombined_preserves {α : Type} :
    ∀ (order : List String) (segs : List (String × List (Sample α))) (key : String),
      (∀ c ∈ order, c ++ ".1" ≠ key ∧ c ++ ".2" ≠ key) →
      dlookup (addCombined segs order) key = dlookup segs key := by
  intro order
  induction order with
  | nil => intro segs key _; rfl
  | cons c cs ih =>
    intro segs key h
    simp only [addCombined]
    rw [ih _ key (fun d hd => h d (List.mem_cons_of_mem c hd))]
    rw [dlookup_dinsert_other _ _ _ _ (h c (List.mem_cons_self c cs)).2]
    rw [dlookup_dinsert_other _ _ _ _ (h c (List.mem_cons_self c cs)).1]

/-- One successful loop iteration whose event strips neither to the given key
nor to fixation_cross leaves the binding of that key unchanged. -/
theorem stepEvent_preserves_key {α : Type} (log : List EventRec) (ecg : List (Sample α))
    (st : SegState α) (e : String) (st' : SegState α) (key : String)
    (h : stepEvent log ecg st e = Except.ok st')
    (h1 : pyDropRight e 6 ≠ key)
    (h2 : pyDropRight e 6 ≠ "fixation_cross") :
    dlookup st'.segments key = dlookup st.segments key := by
  by_cases hb : pyEndsWith e "_begin" = true
  · rcases hf1 : firstTime log e with _ | bt
    · simp [stepEvent, hb, hf1] at h
    · rcases hf2 : firstTime log (pyDropRight e 6 ++ "_end") with _ | et
      · rcases hf3 : firstTime log (pySplitHead (pyDropRight e 6 ++ "_end") ++ "_end")
          with _ | et2
        · simp [stepEvent, hb, hf1, hf2, hf3] at h
        · simp only [stepEvent, hb, if_pos, hf1, hf2, hf3, h2, if_neg,
            Except.ok.injEq] at h
          subst h
          exact dlookup_dinsert_other _ _ _ _ h1
      · simp only [stepEvent, hb, if_pos, hf1, hf2, Except.ok.injEq] at h
        subst h
        exact dlookup_dinsert_other _ _ _ _ h1
  · simp only [stepEvent, hb, if_neg, Bool.false_eq_true, not_false_iff,
      Except.ok.injEq] at h
    subst h
    rfl

/-- A successful run over events none of which strips to the key or to
fixation_cross leaves the binding of that key unchanged. -/
theorem runEvents_preserves_key {α : Type} (log : List EventRec) (ecg : List (Sample α)) :
    ∀ (es : List String) (st st' : SegState α) (key : String),
      runEvents log ecg st es = Except.ok st' →
      (∀ e ∈ es, pyDropRight e 6 ≠ key ∧ pyDropRight e 6 ≠ "fixation_cross") →
      dlookup st'.segments key = dlookup st.segments key := by
  intro es
  induction es with
  | nil =>
    intro st st' key h _
    simp only [runEvents, Except.ok.injEq] at h
    subst h
    rfl
  | cons b t ih =>
    intro st st' key h hcol
    rcases hs : stepEvent log ecg st b with msg | st1
    · simp only [runEvents, hs] at h
      exact Except.noConfusion h
    · simp only [runEvents, hs] at h
      rw [ih st1 st' key h (fun e he => hcol e (List.mem_cons_of_mem b he))]
      exact stepEvent_preserves_key log ecg st b st1 key hs
        (hcol b (List.mem_cons_self b t)).1 (hcol b (List.mem_cons_self b t)).2

/-! ## Claim C5: the synthesized fixation_cross_v2 segment -/

/-- Processing the fixation_cross_begin event when only the fallback
fixation_end boundary exists: the iteration succeeds and inserts both the
fixation_cross segment and the 30-second-trimmed fixation_cross_v2 segment. -/
theorem stepEvent_fixation_fallback {α : Type} (log : List EventRec)
    (ecg : List (Sample α)) (st : SegState α) (bt et : Int)
    (hb : firstTime log "fixation_cross_begin" = some bt)
    (hne : firstTime log "fixation_cross_end" = none)
    (hfe : firstTime log "fixation_end" = some et) :
    stepEvent log ecg st "fixation_cross_begin" = Except.ok
      ⟨dinsert (dinsert st.segments "fixation_cross" (sliceSeg ecg bt et))
        "fixation_cross_v2" (sliceSeg ecg (bt + 30000) (et - 30000)),
       (orderUpdate st.condition st.order_of_conditions "fixation_cross").2,
       (orderUpdate st.condition st.order_of_conditions "fixation_cross").1⟩ := by
  have e1 : pyEndsWith "fixation_cross_begin" "_begin" = true := by decide
  have e2 : pyDropRight "fixation_cross_begin" 6 = "fixation_cross" := by decide
  have e3 : ("fixation_cross" ++ "_end" : String) = "fixation_cross_end" := by decide
  have e4 : pySplitHead "fixation_cross_end" ++ "_end" = "fixation_end" := by decide
  have e5 : ("fixation_cross" ++ "_v2" : String) = "fixation_cross_v2" := by decide
  simp [stepEvent, e1, e2, e3, e4, e5, hb, hne, hfe]

/-- Through a successful run of the event loop containing
fixation_cross_begin once, with only the fallback boundary resolvable and no
other event whose stripped name is fixation_cross or fixation_cross_v2, the
final segments dict binds fixation_cross_v2 to the trimmed slice. -/
theorem runEvents_fixation_v2 {α : Type} (log : List EventRec) (ecg : List (Sample α))
    (bt et : Int)
    (hb : firstTime log "fixation_cross_begin" = some bt)
    (hne : firstTime log "fixation_cross_end" = none)
    (hfe : firstTime log "fixation_end" = some et) :
    ∀ (es : List String) (st0 st' : SegState α),
      runEvents log ecg st0 es = Except.ok st' →
      "fixation_cross_begin" ∈ es →
      es.Nodup →
      (∀ e ∈ es, e ≠ "fixation_cross_begin" →
        pyDropRight e 6 ≠ "fixation_cross_v2" ∧ pyDropRight e 6 ≠ "fixation_cross") →
      dlookup st'.segments "fixation_cross_v2" =
        some (sliceSeg ecg (bt + 30000) (et - 30000)) := by
  intro es
  induction es with
  | nil =>
    intro st0 st' _ hmem
    simp at hmem
  | cons b t ih =>
    intro st0 st' h hmem hnd hcol
    rcases hs : stepEvent log ecg st0 b with msg | st1
    · simp only [runEvents, hs] at h
      exact Except.noConfusion h
    · simp only [runEvents, hs] at h
      by_cases hbfc : b = "fixation_cross_begin"
      · subst hbfc
        rw [stepEvent_fixation_fallback log ecg st0 bt et hb hne hfe] at hs
        simp only [Except.ok.injEq] at hs
        have hnotin : "fixation_cross_begin" ∉ t := (List.nodup_cons.mp hnd).1
        have hpres := runEvents_preserves_key log ecg t st1 st' "fixation_cross_v2" h
          (fun e he => hcol e (List.mem_cons_of_mem _ he)
            (fun heq => hnotin (heq ▸ he)))
        rw [hpres, ← hs]
        exact dlookup_dinsert_self _ _ _
      · have hmem' : "fixation_cross_begin" ∈ t := by
          rcases List.mem_cons.mp hmem with he | ht
          · exact absurd he.symm hbfc
          · exact ht
        exact ih st1 st' h hmem' (List.nodup_cons.mp hnd).2
          (fun e he hne' => hcol e (List.mem_cons_of_mem b he) hne')

/-- C5: whenever fixation_cross_begin is resolved through the fallback path
(no exact fixation_cross_end event, fallback event fixation_end present),
segmentation_ecg additionally creates the segment fixation_cross_v2 holding
the slice of the stream between begin_time + 30000 and end_time - 30000; and
whenever a slicing window is inverted (end below begin) the slice is the
empty segment, with no error.  The last hypothesis is the data-model
assumption that no other event name collides with the fixation_cross family
(event names are unique per log and the _v2 name is synthesized). -/
theorem fixation_cross_v2_trimmed {α : Type} (log : List EventRec)
    (ecg : List (Sample α)) (bt et : Int)
    (segs : List (String × List (Sample α)))
    (hb : firstTime log "fixation_cross_begin" = some bt)
    (hne : firstTime log "fixation_cross_end" = none)
    (hfe : firstTime log "fixation_end" = some et)
    (hok : segmentation_ecg ecg log = Except.ok segs)
    (hcol : ∀ ev ∈ eventNames log, ev ≠ "fixation_cross_begin" →
      pyDropRight ev 6 ≠ "fixation_cross_v2" ∧ pyDropRight ev 6 ≠ "fixation_cross") :
    dlookup segs "fixation_cross_v2" =
      some (sliceSeg ecg (bt + 30000) (et - 30000)) ∧
    (∀ b e : Int, e < b → sliceSeg ecg b e = []) := by
  constructor
  · rcases hres : eventSegResult ecg log with msg | st'
    · rw [segmentation_ecg, hres] at hok
      exact Except.noConfusion hok
    · rw [segmentation_ecg, hres] at hok
      simp only [Except.ok.injEq] at hok
      have hsub := (eventSegResult_order_inv ecg log st' hres).1
      have hpres := addCombined_preserves st'.order_of_conditions st'.segments
        "fixation_cross_v2"
        (fun c hc => by
          have hcp := hsub hc
          simp only [condition_prefixes, List.mem_cons, List.mem_singleton,
            List.not_mem_nil, or_false] at hcp
          rcases hcp with h | h | h <;> rw [h] <;> exact ⟨by decide, by decide⟩)
      rw [← hok, hpres]
      rw [eventSegResult] at hres
      exact runEvents_fixation_v2 log ecg bt et hb hne hfe
        (uniqueList (eventNames log)) ⟨[], [], ""⟩ st' hres
        ((mem_uniqueList _ _).mpr (mem_of_firstTime_isSome log _ bt hb))
        (nodup_uniqueList _)
        (fun e he hne' => hcol e ((mem_uniqueList _ _).mp he) hne')
  · intro b e hlt
    rw [sliceSeg, List.filter_eq_nil_iff]
    intro s _
    simp only [Bool.and_eq_true, decide_eq_true_eq, not_and]
    intro hb' he'
    omega

/-- C5 witness: the trimmed-variant conclusion on the concrete fallback log,
where the window 0..100000 trims to 30000..70000 and keeps exactly the middle
sample. -/
theorem fixation_cross_v2_trimmed_witness :
    dlookup [("fixation_cross", ecgFix), ("fixation_cross_v2", [⟨50000, 2⟩])]
        "fixation_cross_v2" =
      some (sliceSeg ecgFix ((0 : Int) + 30000) ((100000 : Int) - 30000)) :=
  (fixation_cross_v2_trimmed logFix ecgFix 0 100000
    [("fixation_cross", ecgFix), ("fixation_cross_v2", [⟨50000, 2⟩])]
    (by decide) (by decide) (by decide) rfl (by decide)).1

/-! ## Claim C7: combined phase segments -/

theorem foldl_combine_eq_flatten {α : Type} (segs : List (String × List (Sample α)))
    (pfx : String) :
    ∀ (ks : List Nat) (init : List (Sample α)),
      ks.foldl
        (fun combined_segment phase =>
          match dlookup segs (pfx ++ "_phase_" ++ toString phase) with
          | some seg => combined_segment ++ seg
          | none => combined_segment) init =
      init ++ (ks.filterMap (fun k => dlookup segs (pfx ++ "_phase_" ++ toString k))).flatten := by
  intro ks
  induction ks with
  | nil =>
    intro init
    simp
  | cons k t ih =>
    intro init
    rw [List.foldl_cons, List.filterMap_cons]
    rcases h : dlookup segs (pfx ++ "_phase_" ++ toString k) with _ | s
    · simp only []
      rw [ih init]
    · simp only []
      rw [ih (init ++ s)]
      simp [List.append_assoc]

/-- Lines 50-56 compute exactly the specification-side concatenation of the
present phase segments, in ascending phase order. -/
theorem combine_phases_eq_spec {α : Type} (segs : List (String × List (Sample α)))
    (pfx : String) (lo hi : Nat) :
    combine_phases segs pfx lo hi = phaseConcatSpec segs pfx lo hi := by
  rw [combine_phases, phaseConcatSpec, foldl_combine_eq_flatten]
  rfl

theorem foldl_combine_congr {α : Type} (segs1 segs2 : List (String × List (Sample α)))
    (pfx : String) :
    ∀ (ks : List Nat) (init : List (Sample α)),
      (∀ k ∈ ks, dlookup segs1 (pfx ++ "_phase_" ++ toString k) =
        dlookup segs2 (pfx ++ "_phase_" ++ toString k)) →
      ks.foldl
        (fun combined_segment phase =>
          match dlookup segs1 (pfx ++ "_phase_" ++ toString phase) with
          | some seg => combined_segment ++ seg
          | none => combined_segment) init =
      ks.foldl
        (fun combined_segment phase =>
          match dlookup segs2 (pfx ++ "_phase_" ++ toString phase) with
          | some seg => combined_segment ++ seg
          | none => combined_segment) init := by
  intro ks
  induction ks with
  | nil =>
    intro init _
    rfl
  | cons k t ih =>
    intro init h
    rw [List.foldl_cons, List.foldl_cons, h k (List.mem_cons_self k t)]
    exact ih _ (fun j hj => h j (List.mem_cons_of_mem k hj))

theorem combine_phases_congr {α : Type} (segs1 segs2 : List (String × List (Sample α)))
    (pfx : String) (lo hi : Nat)
    (h : ∀ k ∈ List.range' lo (hi + 1 - lo),
      dlookup segs1 (pfx ++ "_phase_" ++ toString k) =
        dlookup segs2 (pfx ++ "_phase_" ++ toString k)) :
    combine_phases segs1 pfx lo hi = combine_phases segs2 pfx lo hi := by
  rw [combine_phases, combine_phases]
  exact foldl_combine_congr segs1 segs2 pfx _ [] h

theorem combine_phases_dinsert {α : Type} (segs : List (String × List (Sample α)))
    (key : String) (v : List (Sample α)) (pfx : String) (lo hi : Nat)
    (h : ∀ k ∈ List.range' lo (hi + 1 - lo), key ≠ pfx ++ "_phase_" ++ toString k) :
    combine_phases (dinsert segs key v) pfx lo hi = combine_phases segs pfx lo hi :=
  combine_phases_congr _ _ _ _ _
    (fun k hk => dlookup_dinsert_other _ _ _ _ (h k hk))

/-- The combined names derived from vocabulary codes never collide with each
other except when code and suffix both agree. -/
theorem combined_keys_ne :
    ∀ c ∈ condition_prefixes, ∀ d ∈ condition_prefixes,
      (c ++ ".1" ≠ d ++ ".2") ∧
      (c ≠ d → (c ++ ".1" ≠ d ++ ".1") ∧ (c ++ ".2" ≠ d ++ ".2")) := by
  decide

/-- The combined names derived from vocabulary codes never collide with the
phase segment names of vocabulary codes. -/
theorem combined_key_ne_phase :
    ∀ c ∈ condition_prefixes, ∀ d ∈ condition_prefixes, ∀ k ∈ List.range' 1 12,
      (c ++ ".1" ≠ d ++ "_phase_" ++ toString k) ∧
      (c ++ ".2" ≠ d ++ "_phase_" ++ toString k) := by
  decide

/-- In the combined map built over a duplicate-free order list of vocabulary
codes, each condition of the order is bound at {condition}.1 and
{condition}.2 to its phase concatenations over the original segments dict. -/
theorem addCombined_lookup {α : Type} :
    ∀ (order : List String) (segs : List (String × List (Sample α))) (c : String),
      order ⊆ condition_prefixes → order.Nodup → c ∈ order →
      dlookup (addCombined segs order) (c ++ ".1") = some (combine_phases segs c 1 6) ∧
      dlookup (addCombined segs order) (c ++ ".2") = some (combine_phases segs c 7 12) := by
  intro order
  induction order with
  | nil =>
    intro segs c _ _ hc
    simp at hc
  | cons d ds ih =>
    intro segs c hsub hnd hc
    have hdp : d ∈ condition_prefixes := hsub (List.mem_cons_self d ds)
    have hcp : c ∈ condition_prefixes := hsub hc
    have hds : ds ⊆ condition_prefixes := fun x hx => hsub (List.mem_cons_of_mem d hx)
    have hnd' : ds.Nodup := (List.nodup_cons.mp hnd).2
    have hr1 : ∀ k ∈ List.range' 1 (6 + 1 - 1), k ∈ List.range' 1 12 := by decide
    have hr2 : ∀ k ∈ List.range' 7 (12 + 1 - 7), k ∈ List.range' 1 12 := by decide
    simp only [addCombined]
    by_cases hcd : d = c
    · subst hcd
      have hcnotin : d ∉ ds := (List.nodup_cons.mp hnd).1
      have hne21 : d ++ ".2" ≠ d ++ ".1" :=
        fun he => (combined_keys_ne d hdp d hdp).1 he.symm
      constructor
      · rw [addCombined_preserves ds _ (d ++ ".1")
          (fun x hx => by
            have hxp : x ∈ condition_prefixes := hds hx
            have hxd : x ≠ d := fun he => hcnotin (he ▸ hx)
            exact ⟨((combined_keys_ne x hxp d hdp).2 hxd).1,
              fun he => (combined_keys_ne d hdp x hxp).1 he.symm⟩)]
        rw [dlookup_dinsert_other _ _ _ _ hne21]
        exact dlookup_dinsert_self _ _ _
      · rw [addCombined_preserves ds _ (d ++ ".2")
          (fun x hx => by
            have hxp : x ∈ condition_prefixes := hds hx
            have hxd : x ≠ d := fun he => hcnotin (he ▸ hx)
            exact ⟨(combined_keys_ne x hxp d hdp).1,
              ((combined_keys_ne x hxp d hdp).2 hxd).2⟩)]
        rw [dlookup_dinsert_self _ _ _]
        rw [combine_phases_dinsert segs (d ++ ".1") _ d 7 12
          (fun k hk => (combined_key_ne_phase d hdp d hdp k (hr2 k hk)).1)]
    · have hc' : c ∈ ds := by
        rcases List.mem_cons.mp hc with he | ht
        · exact absurd he.symm hcd
        · exact ht
      obtain ⟨g1, g2⟩ := ih _ c hds hnd' hc'
      rw [combine_phases_dinsert _ (d ++ ".2") _ c 1 6
        (fun k hk => (combined_key_ne_phase d hdp c hcp k (hr1 k hk)).2),
        combine_phases_dinsert _ (d ++ ".1") _ c 1 6
        (fun k hk => (combined_key_ne_phase d hdp c hcp k (hr1 k hk)).1)] at g1
      rw [combine_phases_dinsert _ (d ++ ".2") _ c 7 12
        (fun k hk => (combined_key_ne_phase d hdp c hcp k (hr2 k hk)).2),
        combine_phases_dinsert _ (d ++ ".1") _ c 7 12
        (fun k hk => (combined_key_ne_phase d hdp c hcp k (hr2 k hk)).1)] at g2
      exact ⟨g1, g2⟩

/-- C7: for every condition in the discovered condition order, the returned
segment map binds {condition}.1 to the concatenation, in ascending phase
order, of exactly the present segments among {condition}_phase_1 to
{condition}_phase_6, and {condition}.2 likewise for phases 7 to 12
(phaseConcatSpec skips absent phases: they contribute nothing, and no error
arises). -/
theorem combined_phase_segments {α : Type} (ecg : List (Sample α)) (log : List EventRec)
    (st : SegState α) (c : String)
    (hst : eventSegResult ecg log = Except.ok st)
    (hc : c ∈ st.order_of_conditions) :
    segmentation_ecg ecg log =
      Except.ok (addCombined st.segments st.order_of_conditions) ∧
    dlookup (addCombined st.segments st.order_of_conditions) (c ++ ".1") =
      some (phaseConcatSpec st.segments c 1 6) ∧
    dlookup (addCombined st.segments st.order_of_conditions) (c ++ ".2") =
      some (phaseConcatSpec st.segments c 7 12) := by
  obtain ⟨hsub, hnd⟩ := eventSegResult_order_inv ecg log st hst
  obtain ⟨g1, g2⟩ := addCombined_lookup st.order_of_conditions st.segments c hsub hnd hc
  refine ⟨by simp [segmentation_ecg, hst], ?_, ?_⟩
  · rw [g1, combine_phases_eq_spec]
  · rw [g2, combine_phases_eq_spec]

/-- C7 witness: condition C of the concrete two-condition log; C.1 collects
the present phases 1 and 2 only. -/
theorem combined_phase_segments_witness :
    dlookup (addCombined stC.segments stC.order_of_conditions) ("C" ++ ".1") =
      some (phaseConcatSpec stC.segments "C" 1 6) :=
  (combined_phase_segments ecgC logC stC "C" rfl (by decide)).2.1

/-! ## Claim C3: order of sanitize, clean and peak detection -/

/-- C3 (divergence of the code from the pipeline the spec describes): with a
sanitizer that shifts amplitudes by one and an identity cleaning transform,
clean_segment returns the raw amplitude 5 unchanged — line 108 hands the raw
segment column, not the sanitized column of line 107, to the cleaning
transform, discarding the sanitizer output — while the sanitize-then-clean
pipeline of the spec yields 6. -/
theorem clean_segment_discards_sanitized :
    clean_segment probeLib probeSeg 250 "neurokit" = Except.ok ([⟨0, 5⟩], [0]) ∧
    cleanPipelineSpec probeLib probeSeg 250 "neurokit" = [6] ∧
    ([⟨0, (5 : Int)⟩] : List (Sample Int)).map (fun s => s.EcgWaveform) ≠
      cleanPipelineSpec probeLib probeSeg 250 "neurokit" :=
  ⟨rfl, rfl, by decide⟩

/-! ## Claim C2: a participant with missing input files -/

/-- C2 (divergence of the code from the skip-and-continue policy): the loader
does return the null 3-tuple for the participant whose event log is missing,
but load_all_data unpacks four values from it, so the whole batch raises
ValueError and the complete participant P1 yields no data either. -/
theorem load_all_data_aborts_on_missing_log :
    load_all_data idPandas [("P1", folderComplete), ("P2", folderNoLog)] none =
      Except.error "ValueError: not enough values to unpack (expected 4)" ∧
    load_data_for_participant idPandas folderNoLog = Except.ok [none, none, none] :=
  ⟨rfl, rfl⟩

end ECGHRV
